import Mathlib

/-!
# Verification of `execute-in-dirs`

A shallow embedding, in Lean 4, of the core logic of the `execute-in-dirs`
tool (source: `src/bin/execute-in-dirs.rs`, with an earlier variant in
`execute-in-dirs/src/main.rs`): a bounded-concurrency multi-directory
command executor.  Byte strings (`OsString`, `Vec<u8>`, `&[u8]`) are
modelled as `List Nat`; Rust `i32` values as `Int`; fallible operations as
`Except`/`Option`.  Each definition mirrors one Rust item and is named
after it (camel-cased where the snake-case name would be awkward in this
development).
-/

namespace ExecuteInDirs

/-- A byte, as read from a pipe or stored in an `OsString`. -/
abbrev Byte := Nat

/-- A byte string (`Vec<u8>` / `OsString` / `&[u8]`). -/
abbrev Bytes := List Nat

/-- ASCII newline, the delimiter of `read_until(b'\n', ..)`. -/
def newlineByte : Byte := 10

/-- ASCII `/`, the path separator stripped by `trim_end(prefix.as_bytes(), '/' as u8)`. -/
def slashByte : Byte := 47

/-- Bytes of an ASCII string literal, for the formatted diagnostic payloads. -/
def strBytes (s : String) : Bytes := s.data.map Char.toNat

/-- Model of `enum ProcessExitResult` from `src/bin/execute-in-dirs.rs`:
`IOError(io::Error)` (the error carried as its display bytes), `Code(i32)`,
`Signal(i32)`, and `Panic` (synthesized by `main` for a command thread that
could not be joined). -/
inductive ProcessExitResult where
  | IOError (err : Bytes)
  | Code (code : Int)
  | Signal (signal : Int)
  | Panic
deriving DecidableEq, Repr

/-- Model of `struct ProcessResult { cwd: OsString, exit: ProcessExitResult }`. -/
structure ProcessResult where
  cwd : Bytes
  exit : ProcessExitResult
deriving DecidableEq, Repr

/-- Model of the spec's abstract `Outcome` data model:
exactly one of Success, ExitCode(code), Signal(number), IOError(message),
TaskFailure.  The code has no separate `Success` constructor; `Code 0`
plays that role, made precise by the abstraction `toOutcome`. -/
inductive Outcome where
  | Success
  | ExitCode (n : Int)
  | Signal (s : Int)
  | IOError (msg : Bytes)
  | TaskFailure
deriving DecidableEq, Repr

/-- Abstraction map from the code's `ProcessExitResult` to the spec's
`Outcome`: `Code 0` is Success, everything else maps to the like-named
abstract constructor. -/
def toOutcome : ProcessExitResult → Outcome
  | .Code code => if code = 0 then .Success else .ExitCode code
  | .Signal signal => .Signal signal
  | .IOError err => .IOError err
  | .Panic => .TaskFailure

/-- Model of `std::process::ExitStatus` as observed through the two Unix
accessors used by the code: `code()` and `signal()`. -/
structure ExitStatus where
  code : Option Int
  signal : Option Int
deriving DecidableEq, Repr

/-- Model of `impl From<Result<ExitStatus, io::Error>> for ProcessExitResult`.
`none` models the `expect("process exited with no exit code or signal!")`
panic, reached only when a finished process reports neither an exit code
nor a signal. -/
def processExitResultFrom : Except Bytes ExitStatus → Option ProcessExitResult
  | .error err => some (.IOError err)
  | .ok estatus =>
    match estatus.code with
    | some code => some (.Code code)
    | none =>
      match estatus.signal with
      | some s => some (.Signal s)
      | none => none

/-- Model of `fn trim_end(s: &[u8], v: u8) -> &[u8]`: the count of trailing
bytes equal to `v`, i.e. `s.iter().rev().take_while(|&&x| x == v).count()`. -/
def trailingCount (s : Bytes) (v : Byte) : Nat :=
  (s.reverse.takeWhile (fun x => x == v)).length

/-- Model of `fn trim_end(s: &[u8], v: u8) -> &[u8]`:
`&s[..s.len() - count]`.  (Nat subtraction here coincides with Rust's
`usize` subtraction because the count never exceeds the length; the
checked variant `trimEndChecked` makes the no-panic argument explicit.) -/
def trim_end (s : Bytes) (v : Byte) : Bytes :=
  s.take (s.length - trailingCount s v)

/-- `trim_end` with Rust's two panic points made explicit: `usize`
subtraction underflow and the slice bound `end_idx <= s.len()`; `none`
models a panic. -/
def trimEndChecked (s : Bytes) (v : Byte) : Option Bytes :=
  if trailingCount s v ≤ s.length then
    some (s.take (s.length - trailingCount s v))
  else
    none

/-- Model of `fn write_with_prefix<T: Write>`: the bytes pushed to the sink
handle for one message are the tokens `trim_end(prefix.as_bytes(), '/')`,
`": "`, `message`, in order (the sink model assumes each `write` delivers
its whole token; write errors are ignored by the code). -/
def writeWithPrefix (pre : Bytes) (message : Bytes) : Bytes :=
  trim_end pre slashByte ++ strBytes ": " ++ message

/-- One iteration of the `for result in results` loop in
`fn process_results(results: Vec<ProcessResult>) -> i32`: the accumulator
carries `e_code` and the stderr lines emitted so far.  `Code(0)` does
nothing; `Code(code)`, `Signal(signal)` and `IOError(err)` each emit one
prefixed line (payloads formatted by the code as `"exited {code}\n"`,
`"signaled {signal}\n"`, `"{err}\n"`) and set `e_code = 1`; `Panic` emits
the prefixed bytes `b"paniced"` and leaves `e_code` unchanged. -/
def processResultsStep (acc : Int × List Bytes) (result : ProcessResult) :
    Int × List Bytes :=
  match result.exit with
  | .Code code =>
    if code = 0 then acc
    else
      (1, acc.2 ++ [ writeWithPrefix result.cwd
        (strBytes ("exited " ++ toString code ++ "\n"))])
  | .Signal signal =>
    (1, acc.2 ++ [ writeWithPrefix result.cwd
      (strBytes ("signaled " ++ toString signal ++ "\n"))])
  | .IOError err =>
    (1, acc.2 ++ [ writeWithPrefix result.cwd (err ++ [newlineByte])])
  | .Panic =>
    (acc.1, acc.2 ++ [ writeWithPrefix result.cwd (strBytes "paniced")])

/-- Model of `fn process_results(results: Vec<ProcessResult>) -> i32`,
also recording the stderr lines it writes: starts with `e_code = 0` and
folds `processResultsStep` over the results in order.  The first component
is the returned exit code, the second the emitted diagnostic byte strings. -/
def process_results (results : List ProcessResult) : Int × List Bytes :=
  results.foldl processResultsStep (0, [])

/-- Model of `reader.read_until(b'\n', &mut buf)` on the remaining stream
contents: returns the chunk read (everything up to and including the first
newline, or up to end-of-stream) and the rest of the stream. -/
def read_until : Bytes → Bytes × Bytes
  | [] => ([], [])
  | b :: rest =>
    if b = newlineByte then ([b], rest)
    else
      let (chunk, r) := read_until rest
      (b :: chunk, r)

theorem read_until_append (s : Bytes) :
    (read_until s).1 ++ (read_until s).2 = s := by
  induction s with
  | nil => rfl
  | cons b rest ih =>
    simp only [read_until]
    by_cases hb : b = newlineByte
    · simp [hb]
    · simp only [if_neg hb]
      simpa using ih

theorem read_until_fst_eq_nil (s : Bytes) : (read_until s).1 = [] ↔ s = [] := by
  cases s with
  | nil => simp [read_until]
  | cons b rest =>
    simp only [read_until]
    by_cases hb : b = newlineByte <;> simp [hb]

theorem read_until_snd_length (s : Bytes) (h : s ≠ []) :
    (read_until s).2.length < s.length := by
  have happ := read_until_append s
  have hfst : (read_until s).1 ≠ [] := by
    intro hnil
    exact h ((read_until_fst_eq_nil s).mp hnil)
  have : s.length = (read_until s).1.length + (read_until s).2.length := by
    conv_lhs => rw [← happ]
    rw [List.length_append]
  have hpos : 0 < (read_until s).1.length := List.length_pos.mpr hfst
  omega

/-- Model of the `loop` in `fn stream_output`: repeatedly `read_until` a
newline; on `Ok(0)` (empty chunk, i.e. end of stream) stop, otherwise pass
the buffer to `write_with_prefix` and continue.  The result is the list of
chunks handed to the sink, in order. -/
def stream_output (s : Bytes) : List Bytes :=
  if h : s = [] then []
  else (read_until s).1 :: stream_output (read_until s).2
termination_by s.length
decreasing_by exact read_until_snd_length s h

/-- Environment of one `execute_command` invocation: the results the
operating system hands back for the two `pipe()` calls, the `spawn()`, and
the `child.wait()`.  Pipe reader/writer handles and the child handle are
abstracted to `Unit`; errors are carried as their display bytes. -/
structure JobEnv where
  pipe1 : Except Bytes Unit
  pipe2 : Except Bytes Unit
  spawnResult : Except Bytes Unit
  waitResult : Except Bytes ExitStatus
deriving Repr

/-- Model of the control flow of `fn execute_command` around its fallible
setup steps: the first component is the `ProcessExitResult` sent on the
results channel (`none` models a panic inside the thread, e.g. the
`expect` in the `From` conversion), the second records whether `spawn`
succeeded, i.e. whether a child process came into existence.  The first
failing step short-circuits: the function sends `IOError` and returns. -/
def execute_command (env : JobEnv) : Option ProcessExitResult × Bool :=
  match env.pipe1 with
  | .error err => (some (.IOError err), false)
  | .ok _ =>
    match env.pipe2 with
    | .error err => (some (.IOError err), false)
    | .ok _ =>
      match env.spawnResult with
      | .error err => (some (.IOError err), false)
      | .ok _ => (processExitResultFrom env.waitResult, true)

/-- The observable behaviour of one launched command thread, as seen by
`main`'s join loop: `some r` means the thread ran to completion, sending
exactly one `ProcessResult` with exit `r` (its last action before
returning); `none` means the thread panicked, sending nothing (every panic
point in `execute_command` precedes a send). -/
abbrev TaskBehavior := Option ProcessExitResult

/-- `HashMap::insert` modelled on an association list: overwrite the value
at an existing key in place, otherwise append the new binding.  `main`
uses `cmd_threads.insert(cwd.clone(), thread::spawn(..))`, keyed by
directory, so a duplicate directory replaces (and thereby detaches) the
earlier thread's join handle. -/
def hashInsert (m : List (Bytes × TaskBehavior)) (k : Bytes) (v : TaskBehavior) :
    List (Bytes × TaskBehavior) :=
  match m with
  | [] => [(k, v)]
  | (k', v') :: rest =>
    if k' = k then (k, v) :: rest else (k', v') :: hashInsert rest k v

/-- The `cmd_threads` map after `main`'s launch loop, given the launched
tasks in launch order (one `(cwd, behaviour)` pair per directory argument). -/
def cmdThreadsMap (tasks : List (Bytes × TaskBehavior)) :
    List (Bytes × TaskBehavior) :=
  tasks.foldl (fun m t => hashInsert m t.1 t.2) []

/-- The contents of the results channel: one message per task that ran to
completion, carrying that task's directory and exit result, here listed in
launch order (the real arrival order is an arbitrary permutation of these,
which the theorems quantify over). -/
def channelOf (tasks : List (Bytes × TaskBehavior)) : List ProcessResult :=
  tasks.filterMap (fun t => t.2.map (fun e => ProcessResult.mk t.1 e))

/-- Model of `main`'s join loop over `cmd_threads`: for each map entry, a
panicked thread (`thread.join()` returned `Err`) contributes a synthesized
`ProcessResult` with exit `Panic` for its directory, and a completed
thread triggers one `rx.recv()`, consuming the next buffered channel
message (whichever task it came from).  `none` models `rx.recv()` blocking
forever because fewer messages were sent than the loop tries to receive. -/
def collectResults :
    List (Bytes × TaskBehavior) → List ProcessResult → Option (List ProcessResult)
  | [], _ => some []
  | (cwd, none) :: rest, chan =>
    (collectResults rest chan).map (fun rs => ProcessResult.mk cwd .Panic :: rs)
  | (_, some _) :: rest, chan =>
    match chan with
    | [] => none
    | m :: chanRest =>
      (collectResults rest chanRest).map (fun rs => m :: rs)

/-- The `ProcessResult` the spec expects the aggregator to receive for one
task: the exit result it sent, or a synthesized `Panic` if it panicked. -/
def expectedResult (t : Bytes × TaskBehavior) : ProcessResult :=
  match t.2 with
  | some e => ProcessResult.mk t.1 e
  | none => ProcessResult.mk t.1 .Panic

/-- The `Panic` result `main` synthesizes for a map entry whose thread
join returned `Err`, if that entry's thread panicked. -/
def panicResult? (t : Bytes × TaskBehavior) : Option ProcessResult :=
  match t.2 with
  | none => some (ProcessResult.mk t.1 .Panic)
  | some _ => none

/-! ## The concurrency gate

`execute_command` brackets its whole body in `let _guard = semaphore.access()`,
where the semaphore is `Semaphore::new(opt.concurrency)` shared across all
command threads.  Per the `std_semaphore` crate contract, `access()`
decrements the counter, blocking while it would go below zero, and the
returned guard increments it again when dropped (here: when
`execute_command` returns, on any path).  The state machine below models
each command thread's position in `execute_command`'s control flow; the
gate guard on `acquire` is the semaphore's blocking behaviour. -/

/-- The phases of one command thread executing `execute_command`:
`notStarted` = before `semaphore.access()` returns; `setup` = permit held,
allocating pipes / spawning; `running` = permit held, child process alive;
`joining` = permit held, child exited, joining the two io threads and
sending the result; `finished` = returned (permit released). -/
inductive Phase where
  | notStarted
  | setup
  | running
  | joining
  | finished
deriving DecidableEq, Repr

/-- Phases during which the thread holds a semaphore permit: everything
between the return of `semaphore.access()` and the drop of `_guard`. -/
def holdsPermit : Phase → Bool
  | .setup => true
  | .running => true
  | .joining => true
  | _ => false

/-- Phases during which this job's child process is alive. -/
def childRunning : Phase → Bool
  | .running => true
  | _ => false

/-- A scheduler state: the phase of each launched command thread. -/
abbrev SchedState := List Phase

/-- Number of threads currently holding a semaphore permit. -/
def heldCount (s : SchedState) : Nat := (s.filter holdsPermit).length

/-- Number of child processes currently running. -/
def runningCount (s : SchedState) : Nat := (s.filter childRunning).length

/-- The transitions of a single command thread through `execute_command`:
acquire the permit; spawn the child after successful pipe setup; return
early on pipe or spawn failure (releasing the permit); observe the child
exit; finish after joining the io threads (releasing the permit). -/
inductive JobStep : Phase → Phase → Prop
  | acquire : JobStep .notStarted .setup
  | spawnChild : JobStep .setup .running
  | setupFail : JobStep .setup .finished
  | childExit : JobStep .running .joining
  | finishJob : JobStep .joining .finished

/-- One step of the whole scheduler with gate capacity `C`: some thread
takes a `JobStep`, and a thread may pass `acquire` only while fewer than
`C` permits are held (the semaphore counter, initialized to `C`, must be
positive for `access()` to return). -/
inductive SchedStep (C : Nat) : SchedState → SchedState → Prop
  | mk (pre post : SchedState) (p q : Phase) (hstep : JobStep p q)
      (hgate : p = .notStarted → heldCount (pre ++ p :: post) < C) :
      SchedStep C (pre ++ p :: post) (pre ++ q :: post)

/-- States reachable by the scheduler with gate capacity `C` and `n`
launched command threads, starting from all threads before their
`semaphore.access()` call. -/
inductive SchedReachable (C n : Nat) : SchedState → Prop
  | init : SchedReachable C n (List.replicate n .notStarted)
  | step {s t : SchedState} : SchedReachable C n s → SchedStep C s t →
      SchedReachable C n t

/-! ## Spec-side definitions

The following definitions are written from the specification's words, to be
compared with the code-derived definitions above. -/

/-- From the spec's words: "directory with trailing separators stripped" —
drop every trailing `/` byte. -/
def stripTrailingSep (dir : Bytes) : Bytes :=
  (dir.reverse.dropWhile (fun b => b == slashByte)).reverse

/-- From the spec's words (§4.6, with the TaskFailure payload amended to
what the code emits): the diagnostic line the aggregator emits for one
outcome — none for Success; otherwise the stripped directory prefix,
`": "`, and the payload `"exited {n}\n"` for ExitCode, `"signaled {s}\n"`
for Signal, `"{msg}\n"` for IOError, and the bytes `"paniced"` (no
trailing newline) for TaskFailure. -/
def diagLineSpec (cwd : Bytes) : Outcome → Option Bytes
  | .Success => none
  | .ExitCode n =>
    some (stripTrailingSep cwd ++ strBytes ": " ++
      strBytes ("exited " ++ toString n ++ "\n"))
  | .Signal s =>
    some (stripTrailingSep cwd ++ strBytes ": " ++
      strBytes ("signaled " ++ toString s ++ "\n"))
  | .IOError msg =>
    some (stripTrailingSep cwd ++ strBytes ": " ++ (msg ++ [newlineByte]))
  | .TaskFailure =>
    some (stripTrailingSep cwd ++ strBytes ": " ++ strBytes "paniced")

/-- From the spec's words (§4.3 step 7): "exit code 0 → Success; exit code
n≠0 → ExitCode(n); no exit code but a terminating signal s → Signal(s);
wait failure → IOError". -/
def specClassify : Except Bytes ExitStatus → Outcome
  | .error err => .IOError err
  | .ok estatus =>
    match estatus.code with
    | some code => if code = 0 then .Success else .ExitCode code
    | none => .Signal (estatus.signal.getD 0)

/-- Case flag: the wait itself failed. -/
def isWaitErr : Except Bytes ExitStatus → Bool
  | .error _ => true
  | .ok _ => false

/-- Case flag: the process exited with code 0. -/
def isExitZero : Except Bytes ExitStatus → Bool
  | .error _ => false
  | .ok estatus => estatus.code == some 0

/-- Case flag: the process exited with a nonzero code. -/
def isExitNonzero : Except Bytes ExitStatus → Bool
  | .error _ => false
  | .ok estatus =>
    match estatus.code with
    | some code => decide (code ≠ 0)
    | none => false

/-- Case flag: the process had no exit code and a terminating signal. -/
def isSignaled : Except Bytes ExitStatus → Bool
  | .error _ => false
  | .ok estatus => estatus.code == none && estatus.signal.isSome

/-- The Unix well-formedness precondition on a wait result: a process that
terminated without an exit code was terminated by a signal. -/
def waitWF (w : Except Bytes ExitStatus) : Prop :=
  ∀ estatus, w = .ok estatus → estatus.code = none → estatus.signal ≠ none

/-! ## Helper lemmas -/

theorem trim_end_decomp (s : Bytes) (v : Byte) :
    s = (s.reverse.dropWhile (fun x => x == v)).reverse ++
      (s.reverse.takeWhile (fun x => x == v)).reverse := by
  have hTD : s.reverse.takeWhile (fun x => x == v) ++
      s.reverse.dropWhile (fun x => x == v) = s.reverse :=
    List.takeWhile_append_dropWhile _ _
  conv_lhs => rw [← List.reverse_reverse s, ← hTD]
  rw [List.reverse_append]

theorem trim_end_eq_strip (s : Bytes) (v : Byte) :
    trim_end s v = (s.reverse.dropWhile (fun x => x == v)).reverse := by
  have hTD : s.reverse.takeWhile (fun x => x == v) ++
      s.reverse.dropWhile (fun x => x == v) = s.reverse :=
    List.takeWhile_append_dropWhile _ _
  have h1 : s.length = (s.reverse.takeWhile (fun x => x == v)).length +
      (s.reverse.dropWhile (fun x => x == v)).length := by
    conv_lhs => rw [← List.length_reverse s, ← hTD]
    rw [List.length_append]
  have hlen : s.length - trailingCount s v =
      (s.reverse.dropWhile (fun x => x == v)).reverse.length := by
    unfold trailingCount
    rw [List.length_reverse]
    omega
  unfold trim_end
  rw [hlen]
  exact (List.prefix_iff_eq_take.mp
    ⟨(s.reverse.takeWhile (fun x => x == v)).reverse,
      (trim_end_decomp s v).symm⟩).symm

theorem trailingCount_le (s : Bytes) (v : Byte) : trailingCount s v ≤ s.length := by
  unfold trailingCount
  calc (s.reverse.takeWhile (fun x => x == v)).length
      ≤ s.reverse.length := (List.takeWhile_sublist _).length_le
    _ = s.length := List.length_reverse s

theorem trim_end_tail_mem (s : Bytes) (v : Byte) :
    ∀ b ∈ (s.reverse.takeWhile (fun x => x == v)).reverse, b = v := by
  intro b hb
  rw [List.mem_reverse] at hb
  simpa using List.mem_takeWhile_imp hb

theorem trim_end_prefix_self (s : Bytes) (v : Byte) : trim_end s v <+: s := by
  rw [trim_end_eq_strip]
  exact ⟨(s.reverse.takeWhile (fun x => x == v)).reverse, (trim_end_decomp s v).symm⟩

theorem trim_end_getLast_ne (s : Bytes) (v : Byte) (b : Byte)
    (h : (trim_end s v).getLast? = some b) : b ≠ v := by
  rw [trim_end_eq_strip, List.getLast?_reverse] at h
  have hnot := List.head?_dropWhile_not (fun x => x == v) s.reverse
  rw [h] at hnot
  simpa using hnot

/-- C6: For every line forwarded from a child's stdout or stderr and for
every diagnostic summary line, the bytes written to the sink are exactly
the directory prefix with all trailing path separators stripped, followed
by `": "`, followed by the original payload unmodified; in particular the
directory arguments `/tmp/x/` and `/tmp/x` both produce the prefix
`/tmp/x`. -/
theorem writeWithPrefix_strips_and_tags (dir message : Bytes) :
    writeWithPrefix dir message = stripTrailingSep dir ++ strBytes ": " ++ message
    ∧ writeWithPrefix (strBytes "/tmp/x/") message =
        strBytes "/tmp/x" ++ strBytes ": " ++ message
    ∧ writeWithPrefix (strBytes "/tmp/x") message =
        strBytes "/tmp/x" ++ strBytes ": " ++ message := by
  refine ⟨?_, ?_, ?_⟩
  · unfold writeWithPrefix stripTrailingSep
    rw [trim_end_eq_strip]
  · unfold writeWithPrefix
    rw [show trim_end (strBytes "/tmp/x/") slashByte = strBytes "/tmp/x" by decide]
  · unfold writeWithPrefix
    rw [show trim_end (strBytes "/tmp/x") slashByte = strBytes "/tmp/x" by decide]

/-- C10: `trim_end` is total (its `usize` subtraction and slice bound never
panic, including on the empty slice and on a slice consisting entirely of
`v`) and returns the longest prefix of `s` whose last byte is not `v`;
consequently a directory argument consisting only of path separators
yields the empty prefix and its output lines begin with `": "`. -/
theorem trim_end_total_longest (s : Bytes) (v : Byte) :
    trimEndChecked s v = some (trim_end s v)
    ∧ trim_end s v <+: s
    ∧ (∀ b, (trim_end s v).getLast? = some b → b ≠ v)
    ∧ (∀ p, p <+: s → (p = [] ∨ ∃ b, p.getLast? = some b ∧ b ≠ v) →
        p.length ≤ (trim_end s v).length)
    ∧ trim_end (strBytes "//") slashByte = []
    ∧ (∀ m, writeWithPrefix (strBytes "//") m = strBytes ": " ++ m) := by
  refine ⟨?_, trim_end_prefix_self s v, trim_end_getLast_ne s v, ?_, by decide, ?_⟩
  · unfold trimEndChecked
    rw [if_pos (trailingCount_le s v)]
    rfl
  · intro p hp hcase
    rcases hcase with rfl | ⟨b, hlast, hbv⟩
    · simp
    · by_contra hlen
      push_neg at hlen
      have htp : trim_end s v <+: p :=
        List.prefix_of_prefix_length_le (trim_end_prefix_self s v) hp (le_of_lt hlen)
      obtain ⟨mid, hmid⟩ := htp
      have hplen : p.length = (trim_end s v).length + mid.length := by
        rw [← hmid, List.length_append]
      have hmidne : mid ≠ [] := by
        intro h0
        rw [h0] at hplen
        simp at hplen
        omega
      have hs' : s = trim_end s v ++ (s.reverse.takeWhile (fun x => x == v)).reverse := by
        rw [trim_end_eq_strip]
        exact trim_end_decomp s v
      have hmidtail : mid <+: (s.reverse.takeWhile (fun x => x == v)).reverse := by
        have h2 : trim_end s v ++ mid <+:
            trim_end s v ++ (s.reverse.takeWhile (fun x => x == v)).reverse := by
          rw [hmid, ← hs']
          exact hp
        exact (List.prefix_append_right_inj _).mp h2
      have hblast : mid.getLast? = some b := by
        rw [← hmid] at hlast
        rwa [List.getLast?_append_of_ne_nil _ hmidne] at hlast
      obtain ⟨hne, hbeq⟩ := List.mem_getLast?_eq_getLast
        (show b ∈ mid.getLast? from hblast)
      have hbmem : b ∈ mid := hbeq ▸ List.getLast_mem hne
      exact hbv (trim_end_tail_mem s v b (hmidtail.subset hbmem))
  · intro m
    unfold writeWithPrefix
    rw [show trim_end (strBytes "//") slashByte = [] by decide]
    rfl

/-- Witness for C10 at `s = "a/"`, `v = '/'`: the checked version returns,
and the prefix `"a"` (nonempty, last byte not `/`) is no longer than the
returned `trim_end "a/" '/'`. -/
theorem trim_end_total_longest_witness :
    trimEndChecked [97, 47] 47 = some (trim_end [97, 47] 47)
    ∧ (97 : Nat) ≠ 47
    ∧ [97].length ≤ (trim_end [97, 47] 47).length :=
  ⟨(trim_end_total_longest [97, 47] 47).1,
   (trim_end_total_longest [97, 47] 47).2.2.1 97 (by decide),
   (trim_end_total_longest [97, 47] 47).2.2.2.1 [97] ⟨[47], rfl⟩
     (Or.inr ⟨97, by decide, by decide⟩)⟩

theorem processResultsStep_snd (acc : Int × List Bytes) (r : ProcessResult) :
    (processResultsStep acc r).2 =
      acc.2 ++ (diagLineSpec r.cwd (toOutcome r.exit)).toList := by
  have hw : ∀ pre message : Bytes, writeWithPrefix pre message =
      stripTrailingSep pre ++ strBytes ": " ++ message := by
    intro pre message
    unfold writeWithPrefix stripTrailingSep
    rw [trim_end_eq_strip]
  cases hex : r.exit with
  | Code code =>
    by_cases h0 : code = 0
    · simp [processResultsStep, diagLineSpec, toOutcome, hex, h0]
    · simp [processResultsStep, diagLineSpec, toOutcome, hex, h0, hw]
  | Signal signal =>
    simp [processResultsStep, diagLineSpec, toOutcome, hex, hw]
  | IOError err =>
    simp [processResultsStep, diagLineSpec, toOutcome, hex, hw]
  | Panic =>
    simp [processResultsStep, diagLineSpec, toOutcome, hex, hw]

theorem process_results_snd_aux (rs : List ProcessResult) :
    ∀ acc : Int × List Bytes,
      (rs.foldl processResultsStep acc).2 =
        acc.2 ++ rs.filterMap (fun r => diagLineSpec r.cwd (toOutcome r.exit)) := by
  induction rs with
  | nil => intro acc; simp
  | cons r rest ih =>
    intro acc
    rw [List.foldl_cons, ih, List.filterMap_cons, processResultsStep_snd]
    cases diagLineSpec r.cwd (toOutcome r.exit) <;> simp

/-- C2 (amended): for every non-Success Outcome consumed by the
aggregator, exactly one diagnostic line is emitted to the ERR channel,
prefixed with that Outcome's stripped directory, whose payload is
`"exited {n}\n"` for ExitCode(n), `"signaled {s}\n"` for Signal(s),
`"{msg}\n"` for IOError(msg), and the bytes `"paniced"` (not `"failed"`,
and with no trailing newline) for TaskFailure; Success Outcomes emit no
diagnostic line. -/
theorem process_results_diag_lines (results : List ProcessResult) :
    (process_results results).2 =
      results.filterMap (fun r => diagLineSpec r.cwd (toOutcome r.exit)) := by
  unfold process_results
  rw [process_results_snd_aux]
  rfl

/-- C2 counterexample: for a TaskFailure (`Panic`) outcome the emitted
diagnostic payload is the bytes `"paniced"`, not `"failed"` as the claim
states. -/
theorem process_results_taskfailure_payload :
    (process_results [ProcessResult.mk [101] .Panic]).2 =
      [[101] ++ strBytes ": " ++ strBytes "paniced"]
    ∧ (process_results [ProcessResult.mk [101] .Panic]).2 ≠
      [[101] ++ strBytes ": " ++ strBytes "failed"] := by
  decide

/-- C1: at the failing input — a single TaskFailure (`Panic`) outcome —
`process_results` returns exit status 0 even though the outcome is not
Success; the `Panic` arm of the loop omits `e_code = 1`, violating the
spec invariant that the exit status is 1 iff some Outcome is not Success. -/
theorem process_results_panic_exit_status :
    (process_results [ProcessResult.mk [100] .Panic]).1 = 0
    ∧ toOutcome ProcessExitResult.Panic ≠ Outcome.Success := by
  decide

/-- C7: a failure of either of the two independent pipe allocations yields
an IOError Outcome for that directory with no child process spawned, and a
spawn failure after successful pipe allocation yields an IOError Outcome
with no further action; in all three setup-failure cases the job returns
immediately after sending the Outcome. -/
theorem execute_command_setup_failures (env : JobEnv) :
    (∀ err, env.pipe1 = .error err →
        execute_command env = (some (.IOError err), false))
    ∧ (∀ err, env.pipe1 = .ok () → env.pipe2 = .error err →
        execute_command env = (some (.IOError err), false))
    ∧ (∀ err, env.pipe1 = .ok () → env.pipe2 = .ok () →
        env.spawnResult = .error err →
        execute_command env = (some (.IOError err), false)) := by
  obtain ⟨p1, p2, sp, w⟩ := env
  refine ⟨?_, ?_, ?_⟩
  · intro err h1
    simp only at h1
    subst h1
    rfl
  · intro err h1 h2
    simp only at h1 h2
    subst h1
    subst h2
    rfl
  · intro err h1 h2 h3
    simp only at h1 h2 h3
    subst h1
    subst h2
    subst h3
    rfl

/-- Witness for C7: the three setup-failure cases at concrete environments. -/
theorem execute_command_setup_failures_witness :
    execute_command (JobEnv.mk (.error (strBytes "pipe error")) (.ok ())
        (.ok ()) (.ok (ExitStatus.mk (some 0) none))) =
      (some (.IOError (strBytes "pipe error")), false)
    ∧ execute_command (JobEnv.mk (.ok ()) (.error (strBytes "pipe error"))
        (.ok ()) (.ok (ExitStatus.mk (some 0) none))) =
      (some (.IOError (strBytes "pipe error")), false)
    ∧ execute_command (JobEnv.mk (.ok ()) (.ok ())
        (.error (strBytes "spawn error")) (.ok (ExitStatus.mk (some 0) none))) =
      (some (.IOError (strBytes "spawn error")), false) :=
  ⟨(execute_command_setup_failures _).1 _ rfl,
   (execute_command_setup_failures _).2.1 _ rfl rfl,
   (execute_command_setup_failures _).2.2 _ rfl rfl rfl⟩

/-- C8: the termination classification maps exit code 0 to Success, exit
code n≠0 to ExitCode(n), absence of an exit code with terminating signal s
to Signal(s), and a wait failure to IOError, with exactly one of these
cases applying to any (well-formed) wait result. -/
theorem wait_classification (w : Except Bytes ExitStatus) (hwf : waitWF w) :
    (processExitResultFrom w).map toOutcome = some (specClassify w)
    ∧ [isWaitErr w, isExitZero w, isExitNonzero w, isSignaled w].count true = 1 := by
  cases w with
  | error err =>
    exact ⟨rfl, rfl⟩
  | ok st =>
    obtain ⟨code, signal⟩ := st
    cases code with
    | some c =>
      by_cases h0 : c = 0
      · subst h0
        refine ⟨rfl, ?_⟩
        simp [isWaitErr, isExitZero, isExitNonzero, isSignaled, List.count_cons]
      · refine ⟨?_, ?_⟩
        · simp [processExitResultFrom, toOutcome, specClassify, h0]
        · simp [isWaitErr, isExitZero, isExitNonzero, isSignaled,
            List.count_cons, h0]
    | none =>
      cases signal with
      | none => exact absurd rfl (hwf (ExitStatus.mk none none) rfl rfl)
      | some sg =>
        refine ⟨rfl, ?_⟩
        simp [isWaitErr, isExitZero, isExitNonzero, isSignaled, List.count_cons]

/-- Witness for C8 at the wait result `Ok` with exit code 0. -/
theorem wait_classification_witness :
    (processExitResultFrom (Except.ok (ExitStatus.mk (some 0) none))).map
        toOutcome =
      some (specClassify
        (Except.ok (ExitStatus.mk (some 0) none) : Except Bytes ExitStatus))
    ∧ [isWaitErr (Except.ok (ExitStatus.mk (some 0) none)),
        isExitZero (Except.ok (ExitStatus.mk (some 0) none)),
        isExitNonzero (Except.ok (ExitStatus.mk (some 0) none)),
        isSignaled (Except.ok (ExitStatus.mk (some 0) none))].count true = 1 :=
  wait_classification (Except.ok (ExitStatus.mk (some 0) none))
    (fun st h hc => by cases h; simp at hc)

/-- C9: for every successful wait result whose `code()` is `None`, under
the Unix precondition that a terminated process has either an exit code or
a terminating signal, `signal()` is `Some`, so the
`expect("process exited with no exit code or signal!")` never fires. -/
theorem signal_expect_unreachable (estatus : ExitStatus)
    (h : estatus.code = none → estatus.signal.isSome) :
    (processExitResultFrom (.ok estatus)).isSome := by
  obtain ⟨code, signal⟩ := estatus
  cases code with
  | some c => rfl
  | none =>
    cases signal with
    | some s => rfl
    | none =>
      have hfalse := h rfl
      simp at hfalse

/-- Witness for C9 at a process terminated by signal 9. -/
theorem signal_expect_unreachable_witness :
    (processExitResultFrom (.ok (ExitStatus.mk none (some 9)))).isSome :=
  signal_expect_unreachable (ExitStatus.mk none (some 9)) (fun _ => rfl)

theorem read_until_cons_nl (rest : Bytes) :
    read_until (newlineByte :: rest) = ([newlineByte], rest) := by
  simp [read_until]

theorem read_until_cons_ne (x : Byte) (rest : Bytes) (hx : ¬ x = newlineByte) :
    read_until (x :: rest) = (x :: (read_until rest).1, (read_until rest).2) := by
  simp only [read_until, if_neg hx]

theorem read_until_internal (s : Bytes) :
    ∀ b ∈ (read_until s).1.dropLast, b ≠ newlineByte := by
  induction s with
  | nil => intro b hb; simp [read_until] at hb
  | cons x rest ih =>
    intro b hb
    by_cases hx : x = newlineByte
    · subst hx
      rw [read_until_cons_nl] at hb
      simp at hb
    · rw [read_until_cons_ne x rest hx] at hb
      cases hc : (read_until rest).1 with
      | nil => rw [hc] at hb; simp at hb
      | cons y ys =>
        rw [hc] at hb
        rw [List.dropLast_cons₂] at hb
        rcases List.mem_cons.mp hb with rfl | hb'
        · exact hx
        · exact ih b (hc ▸ hb')

theorem read_until_last_of_rest_ne (s : Bytes) (h : (read_until s).2 ≠ []) :
    (read_until s).1.getLast? = some newlineByte := by
  induction s with
  | nil => simp [read_until] at h
  | cons x rest ih =>
    by_cases hx : x = newlineByte
    · subst hx
      rw [read_until_cons_nl]
      rfl
    · rw [read_until_cons_ne x rest hx] at h ⊢
      simp only at h
      have hrest := ih h
      have hfst : (read_until rest).1 ≠ [] := by
        intro h0
        have hrnil : rest = [] := (read_until_fst_eq_nil rest).mp h0
        subst hrnil
        simp [read_until] at h
      cases hc : (read_until rest).1 with
      | nil => exact absurd hc hfst
      | cons y ys =>
        rw [hc] at hrest
        show (x :: y :: ys).getLast? = some newlineByte
        rw [List.getLast?_cons_cons]
        exact hrest

/-- C3 (amended): the Line Tee forwards every byte of its input stream to
the sink, in order, as nonempty chunks that contain a newline only as
their final byte; every chunk except possibly the last is
newline-terminated, so when the stream ends mid-line the trailing partial
line IS forwarded (flush-on-EOF), not dropped. -/
theorem stream_output_forwards_all (s : Bytes) :
    (stream_output s).flatten = s
    ∧ (∀ c ∈ stream_output s, c ≠ [])
    ∧ (∀ c ∈ stream_output s, ∀ b ∈ c.dropLast, b ≠ newlineByte)
    ∧ (∀ c ∈ (stream_output s).dropLast, c.getLast? = some newlineByte) := by
  generalize hn : s.length = n
  induction n using Nat.strong_induction_on generalizing s with
  | _ n ih =>
    by_cases h : s = []
    · subst h
      simp [stream_output]
    · have hunfold : stream_output s =
          (read_until s).1 :: stream_output (read_until s).2 := by
        rw [stream_output]
        rw [dif_neg h]
      have hlt : (read_until s).2.length < n := hn ▸ read_until_snd_length s h
      obtain ⟨ih1, ih2, ih3, ih4⟩ := ih (read_until s).2.length hlt (read_until s).2 rfl
      refine ⟨?_, ?_, ?_, ?_⟩
      · rw [hunfold, List.flatten_cons, ih1, read_until_append]
      · intro c hc
        rw [hunfold] at hc
        rcases List.mem_cons.mp hc with rfl | hc'
        · intro h0
          exact h ((read_until_fst_eq_nil s).mp h0)
        · exact ih2 c hc'
      · intro c hc
        rw [hunfold] at hc
        rcases List.mem_cons.mp hc with rfl | hc'
        · exact read_until_internal s
        · exact ih3 c hc'
      · intro c hc
        rw [hunfold] at hc
        cases hrest : stream_output (read_until s).2 with
        | nil =>
          rw [hrest] at hc
          simp at hc
        | cons d ds =>
          rw [hrest] at hc
          rw [List.dropLast_cons₂] at hc
          rcases List.mem_cons.mp hc with rfl | hc'
          · have h2ne : (read_until s).2 ≠ [] := by
              intro h0
              rw [h0] at hrest
              simp [stream_output] at hrest
            exact read_until_last_of_rest_ne s h2ne
          · rw [hrest] at ih4
            exact ih4 c hc'

/-- Witness for C3 on the stream `"a\nb"` (ends mid-line): the two chunks
`"a\n"` and `"b"` are forwarded, reassembling the whole stream. -/
theorem stream_output_forwards_all_witness :
    (stream_output [97, newlineByte, 98]).flatten = [97, newlineByte, 98]
    ∧ [98] ≠ ([] : Bytes) :=
  ⟨(stream_output_forwards_all [97, newlineByte, 98]).1,
   (stream_output_forwards_all [97, newlineByte, 98]).2.1 [98] (by
     simp [stream_output, read_until, newlineByte])⟩

/-- C3 counterexample: on the stream `"ab"` (no terminating newline before
end-of-stream) the Line Tee forwards the trailing partial line `"ab"` to
the sink — the claim says it is not forwarded. -/
theorem stream_output_trailing_partial_forwarded :
    stream_output [97, 98] = [[97, 98]]
    ∧ ([97, 98] : Bytes).getLast? ≠ some newlineByte := by
  constructor
  · rw [stream_output]
    rw [dif_neg (by simp)]
    rw [stream_output]
    simp [read_until, newlineByte]
  · simp [newlineByte]

theorem hashInsert_of_not_mem (m : List (Bytes × TaskBehavior)) (k : Bytes)
    (v : TaskBehavior) (h : k ∉ m.map Prod.fst) :
    hashInsert m k v = m ++ [(k, v)] := by
  induction m with
  | nil => rfl
  | cons t rest ih =>
    obtain ⟨k', v'⟩ := t
    simp only [List.map_cons, List.mem_cons] at h
    push_neg at h
    unfold hashInsert
    rw [if_neg (fun hkk => h.1 hkk.symm)]
    rw [ih h.2]
    rfl

theorem cmdThreadsMap_aux (tasks : List (Bytes × TaskBehavior)) :
    ∀ acc : List (Bytes × TaskBehavior),
      (∀ k ∈ tasks.map Prod.fst, k ∉ acc.map Prod.fst) →
      (tasks.map Prod.fst).Nodup →
      tasks.foldl (fun m t => hashInsert m t.1 t.2) acc = acc ++ tasks := by
  induction tasks with
  | nil => intro acc _ _; simp
  | cons t rest ih =>
    intro acc hdisj hnd
    obtain ⟨k, v⟩ := t
    rw [List.foldl_cons]
    have hk : k ∉ acc.map Prod.fst := hdisj k (by simp)
    rw [hashInsert_of_not_mem acc k v hk]
    rw [List.map_cons, List.nodup_cons] at hnd
    have hdisj' : ∀ k' ∈ rest.map Prod.fst, k' ∉ (acc ++ [(k, v)]).map Prod.fst := by
      intro k' hk'
      rw [List.map_append, List.mem_append]
      push_neg
      refine ⟨hdisj k' (by simp [hk']), ?_⟩
      simp only [List.map_cons, List.map_nil, List.mem_singleton]
      intro heq
      exact hnd.1 (heq ▸ hk')
    rw [ih (acc ++ [(k, v)]) hdisj' hnd.2]
    simp

theorem cmdThreadsMap_eq_self (tasks : List (Bytes × TaskBehavior))
    (hnd : (tasks.map Prod.fst).Nodup) : cmdThreadsMap tasks = tasks := by
  unfold cmdThreadsMap
  rw [cmdThreadsMap_aux tasks [] (by simp) hnd]
  rfl

theorem channelOf_length (tasks : List (Bytes × TaskBehavior)) :
    (channelOf tasks).length = (tasks.filter (fun t => t.2.isSome)).length := by
  induction tasks with
  | nil => rfl
  | cons t rest ih =>
    obtain ⟨k, b⟩ := t
    cases b with
    | none => simpa [channelOf, List.filter_cons] using ih
    | some e => simpa [channelOf, List.filter_cons] using ih

theorem collect_spec (entries : List (Bytes × TaskBehavior)) :
    ∀ chan : List ProcessResult,
      (entries.filter (fun t => t.2.isSome)).length = chan.length →
      ∃ res, collectResults entries chan = some res
        ∧ res.Perm (entries.filterMap panicResult? ++ chan) := by
  induction entries with
  | nil =>
    intro chan hlen
    simp only [List.filter_nil, List.length_nil] at hlen
    have hchan : chan = [] := List.length_eq_zero.mp hlen.symm
    subst hchan
    exact ⟨[], rfl, by simp⟩
  | cons t rest ih =>
    intro chan hlen
    obtain ⟨cwd, b⟩ := t
    cases b with
    | none =>
      rw [List.filter_cons] at hlen
      simp only [Option.isSome_none, Bool.false_eq_true, if_false] at hlen
      obtain ⟨res', heq', hperm'⟩ := ih chan hlen
      refine ⟨ProcessResult.mk cwd .Panic :: res', ?_, ?_⟩
      · unfold collectResults
        rw [heq']
        rfl
      · have hfm : ((cwd, none) :: rest).filterMap panicResult? =
            ProcessResult.mk cwd .Panic :: rest.filterMap panicResult? := by
          rw [List.filterMap_cons]
          rfl
        rw [hfm]
        exact hperm'.cons _
    | some e =>
      rw [List.filter_cons] at hlen
      simp only [Option.isSome_some, if_true] at hlen
      cases chan with
      | nil => simp at hlen
      | cons m chanRest =>
        simp only [List.length_cons] at hlen
        have hlen' : (rest.filter (fun t => t.2.isSome)).length = chanRest.length := by
          omega
        obtain ⟨res', heq', hperm'⟩ := ih chanRest hlen'
        refine ⟨m :: res', ?_, ?_⟩
        · show Option.map (fun rs => m :: rs) (collectResults rest chanRest) =
            some (m :: res')
          rw [heq']
          rfl
        · have hfm : ((cwd, some e) :: rest).filterMap panicResult? =
              rest.filterMap panicResult? := by
            rw [List.filterMap_cons]
            rfl
          rw [hfm]
          exact (hperm'.cons m).trans List.perm_middle.symm

theorem expected_perm (tasks : List (Bytes × TaskBehavior)) :
    (tasks.map expectedResult).Perm
      (tasks.filterMap panicResult? ++ channelOf tasks) := by
  induction tasks with
  | nil => simp [channelOf]
  | cons t rest ih =>
    obtain ⟨cwd, b⟩ := t
    cases b with
    | none =>
      have h1 : ((cwd, none) :: rest).map expectedResult =
          ProcessResult.mk cwd .Panic :: rest.map expectedResult := rfl
      have h2 : ((cwd, none) :: rest).filterMap panicResult? =
          ProcessResult.mk cwd .Panic :: rest.filterMap panicResult? := by
        rw [List.filterMap_cons]
        rfl
      have h3 : channelOf ((cwd, none) :: rest) = channelOf rest := by
        unfold channelOf
        rw [List.filterMap_cons]
        rfl
      rw [h1, h2, h3]
      exact ih.cons _
    | some e =>
      have h1 : ((cwd, some e) :: rest).map expectedResult =
          ProcessResult.mk cwd e :: rest.map expectedResult := rfl
      have h2 : ((cwd, some e) :: rest).filterMap panicResult? =
          rest.filterMap panicResult? := by
        rw [List.filterMap_cons]
        rfl
      have h3 : channelOf ((cwd, some e) :: rest) =
          ProcessResult.mk cwd e :: channelOf rest := by
        unfold channelOf
        rw [List.filterMap_cons]
        rfl
      rw [h1, h2, h3]
      exact (ih.cons _).trans List.perm_middle.symm

/-- C4 (amended): provided the input directories are pairwise distinct, the
scheduler synthesizes a TaskFailure (`Panic`) Outcome for every launched
task that panicked instead of sending one, joins every launched task's
entry before aggregation, and exactly one Outcome per input directory
reaches the aggregator — for any iteration order of the thread map and any
arrival order of the channel messages.  (With a duplicated directory the
thread map, keyed by directory, drops an entry and an Outcome is lost; see
the counterexample.) -/
theorem scheduler_outcome_per_directory
    (tasks entries : List (Bytes × TaskBehavior)) (chan : List ProcessResult)
    (hnd : (tasks.map Prod.fst).Nodup)
    (hentries : entries.Perm (cmdThreadsMap tasks))
    (hchan : chan.Perm (channelOf tasks)) :
    ∃ res, collectResults entries chan = some res
      ∧ res.Perm (tasks.map expectedResult) := by
  rw [cmdThreadsMap_eq_self tasks hnd] at hentries
  have hcount : (entries.filter (fun t => t.2.isSome)).length = chan.length := by
    rw [hchan.length_eq, channelOf_length,
      (hentries.filter (fun t => t.2.isSome)).length_eq]
  obtain ⟨res, heq, hperm⟩ := collect_spec entries chan hcount
  refine ⟨res, heq, ?_⟩
  have hstep : (entries.filterMap panicResult? ++ chan).Perm
      (tasks.filterMap panicResult? ++ channelOf tasks) :=
    (hentries.filterMap panicResult?).append hchan
  exact (hperm.trans hstep).trans (expected_perm tasks).symm

/-- Witness for C4 with two distinct directories, the second task
panicking: both outcomes (one sent, one synthesized Panic) reach the
aggregator. -/
theorem scheduler_outcome_per_directory_witness :
    ∃ res, collectResults
        (cmdThreadsMap [([97], some (ProcessExitResult.Code 0)), ([98], none)])
        (channelOf [([97], some (ProcessExitResult.Code 0)), ([98], none)]) =
        some res
      ∧ res.Perm ([([97], some (ProcessExitResult.Code 0)),
          ([98], none)].map expectedResult) :=
  scheduler_outcome_per_directory
    [([97], some (ProcessExitResult.Code 0)), ([98], none)]
    (cmdThreadsMap [([97], some (ProcessExitResult.Code 0)), ([98], none)])
    (channelOf [([97], some (ProcessExitResult.Code 0)), ([98], none)])
    (by decide) (List.Perm.refl _) (List.Perm.refl _)

/-- C4 counterexample: with the same directory given twice (two launched
tasks, both completing with exit 0), the directory-keyed thread map keeps
only one entry, and the aggregator receives one Outcome for two input
directories — not "exactly one Outcome per input directory". -/
theorem scheduler_duplicate_dir_loses_outcome :
    collectResults
        (cmdThreadsMap [([100], some (ProcessExitResult.Code 0)),
          ([100], some (ProcessExitResult.Code 0))])
        (channelOf [([100], some (ProcessExitResult.Code 0)),
          ([100], some (ProcessExitResult.Code 0))]) =
      some [ProcessResult.mk [100] (ProcessExitResult.Code 0)]
    ∧ [([100], some (ProcessExitResult.Code 0)),
        ([100], some (ProcessExitResult.Code 0))].length = 2 := by
  constructor
  · rfl
  · rfl

theorem heldCount_append (a b : SchedState) :
    heldCount (a ++ b) = heldCount a + heldCount b := by
  unfold heldCount
  rw [List.filter_append, List.length_append]

theorem heldCount_cons (p : Phase) (s : SchedState) :
    heldCount (p :: s) = (if holdsPermit p then 1 else 0) + heldCount s := by
  unfold heldCount
  rw [List.filter_cons]
  cases hp : holdsPermit p
  · simp
  · simp [Nat.add_comm]

theorem runningCount_le_heldCount (s : SchedState) :
    runningCount s ≤ heldCount s := by
  induction s with
  | nil => simp [runningCount, heldCount]
  | cons p rest ih =>
    unfold runningCount heldCount at ih ⊢
    rw [List.filter_cons, List.filter_cons]
    cases p <;> simp [childRunning, holdsPermit] <;> omega

theorem heldCount_replicate_notStarted (n : Nat) :
    heldCount (List.replicate n Phase.notStarted) = 0 := by
  induction n with
  | zero => rfl
  | succ k ih =>
    rw [List.replicate_succ, heldCount_cons, ih]
    simp [holdsPermit]

theorem heldCount_le_of_step {C : Nat} {s t : SchedState}
    (hstep : SchedStep C s t) (hinv : heldCount s ≤ C) : heldCount t ≤ C := by
  obtain ⟨pre, post, p, q, hjs, hgate⟩ := hstep
  cases hjs with
  | acquire =>
    have hlt := hgate rfl
    rw [heldCount_append, heldCount_cons] at hlt ⊢
    simp [holdsPermit] at hlt ⊢
    omega
  | spawnChild =>
    rw [heldCount_append, heldCount_cons] at hinv ⊢
    simp [holdsPermit] at hinv ⊢
    omega
  | setupFail =>
    rw [heldCount_append, heldCount_cons] at hinv ⊢
    simp [holdsPermit] at hinv ⊢
    omega
  | childExit =>
    rw [heldCount_append, heldCount_cons] at hinv ⊢
    simp [holdsPermit] at hinv ⊢
    omega
  | finishJob =>
    rw [heldCount_append, heldCount_cons] at hinv ⊢
    simp [holdsPermit] at hinv ⊢
    omega

theorem reachable_heldCount {C n : Nat} {s : SchedState}
    (h : SchedReachable C n s) : heldCount s ≤ C := by
  induction h with
  | init => rw [heldCount_replicate_notStarted]; exact Nat.zero_le C
  | step _ hstep ih => exact heldCount_le_of_step hstep ih

/-- C5: in every state the scheduler can reach with gate capacity `C` and
`N` launched jobs, the number of simultaneously running child processes
never exceeds `C`: every job acquires a gate permit (only available when
fewer than `C` are held) before pipe allocation and process spawn, and
holds it for the job's entire lifetime, including waiting for both output
readers to finish, so running children are always a subset of the permit
holders. -/
theorem concurrency_bound {C n : Nat} {s : SchedState}
    (h : SchedReachable C n s) : runningCount s ≤ C :=
  le_trans (runningCount_le_heldCount s) (reachable_heldCount h)

/-- Witness for C5: with capacity 1 and one job, the state with the child
running is reachable (acquire, then spawn) and satisfies the bound. -/
theorem concurrency_bound_witness :
    SchedReachable 1 1 [Phase.running] ∧ runningCount [Phase.running] ≤ 1 := by
  have h0 : SchedReachable 1 1 [Phase.notStarted] := SchedReachable.init
  have h1 : SchedReachable 1 1 [Phase.setup] :=
    SchedReachable.step h0
      (SchedStep.mk [] [] Phase.notStarted Phase.setup JobStep.acquire
        (fun _ => by decide))
  have h2 : SchedReachable 1 1 [Phase.running] :=
    SchedReachable.step h1
      (SchedStep.mk [] [] Phase.setup Phase.running JobStep.spawnChild
        (fun hp => absurd hp (by decide)))
  exact ⟨h2, concurrency_bound h2⟩

end ExecuteInDirs
